import Mathlib

/-!
Shallow embedding of `src/scyjava_stubs/_genstubs.py`: the namespace root
finder `list_top_level_packages`, the stub reconciliation loop at the end
of `generate_stubs`, the module loading step of the stub driver, and the
computation of the namespace list from the supplied prefixes or from the
classpath jars.
-/

/-- Split a character list at every occurrence of `c`, keeping empty
segments, mirroring the Python method `str.split` with a one character
separator. -/
def splitChar (c : Char) : List Char → List (List Char)
  | [] => [[]]
  | x :: xs =>
    match splitChar c xs with
    | [] => [[]]
    | seg :: rest => if x = c then [] :: seg :: rest else (x :: seg) :: rest

/-- Parts of a `PurePath` built from a relative POSIX entry name, as found
in zip archives: split on the separator and drop empty and `.` segments,
following the pathlib normalisation rules. -/
def pparts (s : String) : List String :=
  ((splitChar '/' s.data).map (fun cs => String.mk cs)).filter
    (fun t => !(t == "" || t == "."))

/-- Index of the last dot in a character list (`str.rfind`). -/
def rfindDot : List Char → Option Nat
  | [] => none
  | c :: rest =>
    match rfindDot rest with
    | some i => some (i + 1)
    | none => if c = '.' then some 0 else none

/-- `PurePath.suffix` of a file name: the part from the last dot on,
provided that dot is neither the first nor the last character of the name
(the CPython rule). -/
def nameSuffix (nm : String) : String :=
  match rfindDot nm.data with
  | some i =>
    if 0 < i ∧ i + 1 < nm.data.length then String.mk (nm.data.drop i) else ""
  | none => ""

/-- `PurePath.stem` of a file name. -/
def nameStem (nm : String) : String :=
  match rfindDot nm.data with
  | some i =>
    if 0 < i ∧ i + 1 < nm.data.length then String.mk (nm.data.take i) else nm
  | none => nm

/-- Last component of a parts list (`PurePath.name`; empty for the archive
root). -/
def lastPart (ps : List String) : String := ps.getLastD ""

/-- `PurePath(entry).suffix`, line 190 of `_genstubs.py`. -/
def entrySuffix (s : String) : String := nameSuffix (lastPart (pparts s))

/-- Whether a zip entry denotes a compiled class (line 190). -/
def isClassEntry (s : String) : Bool := entrySuffix s == ".class"

/-- `PurePath(entry).parent`, as parts (line 188). -/
def parentDir (s : String) : List String := (pparts s).dropLast

/-- The set `class_dirs` of lines 187-191, as a duplicate free list. -/
def classDirs (nl : List String) : List (List String) :=
  ((nl.filter isClassEntry).map parentDir).dedup

/-- `root in p.parents` (line 196): `r` is a strict structural ancestor of
`p` (a proper prefix of its parts). -/
def ancStrict (r p : List String) : Bool :=
  r.isPrefixOf p && decide (r.length < p.length)

/-- One iteration of the greedy loop of lines 194-197. -/
def addRoot (acc : List (List String)) (p : List String) : List (List String) :=
  if acc.any (fun r => ancStrict r p) then acc else acc ++ [p]

/-- The depth preorder used by `sorted(class_dirs, key=lambda p: len(p.parts))`
on line 194. -/
def depthLE (a b : List String) : Prop := a.length ≤ b.length

instance : DecidableRel depthLE :=
  fun a b => inferInstanceAs (Decidable (a.length ≤ b.length))

instance : IsTotal (List String) depthLE := ⟨fun a b => Nat.le_total a.length b.length⟩

instance : IsTrans (List String) depthLE := ⟨fun _ _ _ h h2 => Nat.le_trans h h2⟩

/-- The accepted roots of one archive, as parts lists (lines 193-197).
The Python loop visits the set `class_dirs` in a stable order of ascending
depth; the embedding fixes one such order. -/
def rootPaths (nl : List String) : List (List String) :=
  ((classDirs nl).insertionSort depthLE).foldl addRoot []

/-- Join a list of strings with a separator (`sep.join(...)`). -/
def joinWith (sep : String) : List String → String
  | [] => ""
  | x :: xs => xs.foldl (fun acc y => acc ++ sep ++ y) x

/-- `str(p).replace(os.sep, ".")` (line 198) for a parts list: the parts
hold no separator character, so this is a dot join; the empty parts list
renders as `str(PurePath("."))`, the single dot. -/
def dottedName (p : List String) : String :=
  if p.isEmpty then "." else joinWith "." p

/-- `list_top_level_packages` (lines 182-200); the Python function returns
these names as a set. -/
def list_top_level_packages (nl : List String) : List String :=
  (rootPaths nl).map dottedName

/-- The directory `d` directly holds a compiled class entry of the archive. -/
def dirHasClass (nl : List String) (d : List String) : Prop :=
  ∃ e, e ∈ nl ∧ isClassEntry e = true ∧ parentDir e = d

/-- Concrete archive for the spec scenario with classes `a.b.C`, `a.b.d.E`
and `a.f.G`. -/
def nlABF : List String := ["a/b/C.class", "a/b/d/E.class", "a/f/G.class"]

/-! Embedding of the reconciliation loop of `generate_stubs`
(lines 139-156) over a file system modelled as a list of files. -/

/-- One file of the output tree: directory parts, file name, text. -/
structure SFile where
  dir : List String
  fname : String
  text : String
deriving DecidableEq

/-- The output tree under `output_dir`. -/
abbrev FS := List SFile

/-- Whether `f` sits at directory `d` under name `n`. -/
def keyMatch (d : List String) (n : String) (f : SFile) : Bool :=
  f.dir == d && f.fname == n

/-- Text of the file at `(d, n)`, when present (`read_text`). -/
def lookupFile (fs : FS) (d : List String) (n : String) : Option String :=
  (fs.find? (keyMatch d n)).map SFile.text

/-- `write_text`: overwrite the file at `(d, n)` or create it. -/
def writeFile (fs : FS) (d : List String) (n t : String) : FS :=
  if fs.any (keyMatch d n) then
    fs.map (fun f => if keyMatch d n f then { f with text := t } else f)
  else fs ++ [⟨d, n, t⟩]

/-- `unlink`: drop the file at `(d, n)`. -/
def removeFile (fs : FS) (d : List String) (n : String) : FS :=
  fs.filter (fun f => !(keyMatch d n f))

/-- Top level statements of a stub module, as parsed by `ast.parse`;
the parser itself is an external oracle in this model. -/
inductive PyStmt where
  | classDef (nm : String)
  | functionDef (nm : String)
  | asyncFunctionDef (nm : String)
  | assign (targets : List String)
  | annAssign (target : String)
  | impModules (mods : List String)
  | impFrom (md : String) (names : List String)
  | exprStmt
deriving DecidableEq

/-- The guarded attribute read of line 144: among module level statements
only class and function definitions carry a name field. -/
def stmtName : PyStmt → Option String
  | .classDef nm => some nm
  | .functionDef nm => some nm
  | .asyncFunctionDef nm => some nm
  | _ => none

/-- `members` (line 144): the set of name fields of the top level nodes. -/
def members (body : List PyStmt) : Finset String :=
  (body.filterMap stmtName).toFinset

/-- The test `members == {"__module_protocol__"}` of line 145. -/
def isNamespaceOnly (body : List PyStmt) : Bool :=
  decide (members body = {"__module_protocol__"})

/-- The module scope binding of a plain `import a.b` statement: the first
dotted segment `a` (as-clauses are outside the model). -/
def bindingOfImportedModule (m : String) : String :=
  String.mk ((splitChar '.' m.data).headD [])

/-- Modelled from the spec: the set of names introduced at module scope by
the top level statements of the file, with the Python binding rules: a
class or function definition binds its name, an assignment binds its
targets, an annotated assignment binds its target, a plain import binds
the first segment of each imported module, and a from import binds the
imported names. -/
def namesIntroducedAtModuleScope : List PyStmt → Finset String
  | [] => ∅
  | s :: rest =>
    (match s with
      | .classDef nm => {nm}
      | .functionDef nm => {nm}
      | .asyncFunctionDef nm => {nm}
      | .assign targets => targets.toFinset
      | .annAssign target => {target}
      | .impModules mods => (mods.map bindingOfImportedModule).toFinset
      | .impFrom _ names => names.toFinset
      | .exprStmt => ∅) ∪ namesIntroducedAtModuleScope rest

/-- The names the code actually counts (line 144): the name fields of the
top level statements that carry one, that is class and function
definitions only; names bound by assignments and imports are not
counted. -/
def declaredDefNames : List PyStmt → Finset String
  | [] => ∅
  | s :: rest =>
    (match s with
      | .classDef nm => {nm}
      | .functionDef nm => {nm}
      | .asyncFunctionDef nm => {nm}
      | _ => ∅) ∪ declaredDefNames rest

/-- CPython `repr` of a text over printable characters: single quotes, or
double quotes when the text holds a single quote and no double quote; the
backslash and the chosen quote are escaped. -/
def pyReprStr (s : String) : String :=
  let hasS := s.data.contains '\''
  let hasD := s.data.contains '"'
  let q : Char := if hasS && !hasD then '"' else '\''
  let esc := s.data.foldr (fun c acc =>
    if c = '\\' then '\\' :: '\\' :: acc
    else if c = q then '\\' :: c :: acc
    else c :: acc) []
  String.mk (q :: (esc ++ [q]))

/-- `INIT_TEMPLATE.format(endpoints=", ".join(repr(x) for x in endpoints))`
(lines 34-38 and 153-154): the text written to the runtime companion
module. -/
def initContent (eps : List String) : String :=
  "from scyjava_stubs import dynamic_import\n\n__all__, __getattr__ = dynamic_import(__name__, __file__, "
    ++ joinWith ", " (eps.map pyReprStr) ++ ")\n"

/-- Modelled from the spec: the companion text the claim describes, whose
third argument is the dependency coordinates rendered as one list literal. -/
def specClaimContent (eps : List String) : String :=
  "from scyjava_stubs import dynamic_import\n\n__all__, __getattr__ = dynamic_import(__name__, __file__, ["
    ++ joinWith ", " (eps.map pyReprStr) ++ "])\n"

/-- `fnmatch` of a file name against the pattern `*.pyi` used by
`rglob("*.pyi")` (line 142). -/
def isPyiName (nm : String) : Bool := ['.', 'p', 'y', 'i'].isSuffixOf nm.data

/-- `fnmatch` of a file name against `*.py` (`rglob("*.py")`, line 160). -/
def isPyName (nm : String) : Bool := ['.', 'p', 'y'].isSuffixOf nm.data

/-- `Path.with_suffix(".py")` on a file name (line 152). -/
def withSuffixPy (nm : String) : String := nameStem nm ++ ".py"

/-- The stub files the loop of line 142 iterates over, as keys. -/
def stubKeys (fs : FS) : List (List String × String) :=
  (fs.filter (fun f => isPyiName f.fname)).map (fun f => (f.dir, f.fname))

/-- One iteration of the loop body of lines 142-154 for the stub at key
`p`: classify the parsed text; when namespace only, optionally delete the
stub and move on; otherwise optionally write the runtime companion. -/
def stepStub (parse : String → List PyStmt) (removeNs addRt : Bool)
    (eps : List String) (fs : FS) (p : List String × String) : FS :=
  match lookupFile fs p.1 p.2 with
  | none => fs
  | some t =>
    if isNamespaceOnly (parse t) then
      if removeNs then removeFile fs p.1 p.2 else fs
    else if addRt then writeFile fs p.1 (withSuffixPy p.2) (initContent eps)
    else fs

/-- The reconciliation pass of lines 142-154. -/
def reconcile (parse : String → List PyStmt) (removeNs addRt : Bool)
    (eps : List String) (fs : FS) : FS :=
  (stubKeys fs).foldl (stepStub parse removeNs addRt eps) fs

/-- `ruff_check` (lines 159-179): when the tool is available it rewrites
the listed `*.py` and `*.pyi` files in place; the fix and format steps are
modelled as one external content transform. -/
def ruffPhase (avail : Bool) (fix : String → String) (fs : FS) : FS :=
  if avail then
    fs.map (fun f =>
      if isPyName f.fname || isPyiName f.fname then { f with text := fix f.text }
      else f)
  else fs

/-- Lines 139-156 of `generate_stubs`: the reconciliation pass followed by
the formatting pass. -/
def postProcess (parse : String → List PyStmt) (removeNs addRt : Bool)
    (eps : List String) (avail : Bool) (fix : String → String) (fs : FS) : FS :=
  ruffPhase avail fix (reconcile parse removeNs addRt eps fs)

/-- Unique file keys, true of any tree read from a real file system. -/
def goodFS (fs : FS) : Prop := (fs.map (fun f => (f.dir, f.fname))).Nodup

instance (fs : FS) : Decidable (goodFS fs) :=
  inferInstanceAs (Decidable (List.Nodup _))

/-! Embedding of the module loading step of the stub driver and of the
namespace list computation (lines 117-137). -/

/-- Line 130, the list comprehension importing every requested root: the
module loading oracle is applied to each root in order and the first
failure propagates before any later root is tried. -/
def loadModules {E M : Type} (imp : String → Except E M) :
    List String → Except E (List M)
  | [] => .ok []
  | r :: rest =>
    match imp r with
    | .error e => .error e
    | .ok m =>
      match loadModules imp rest with
      | .error e => .error e
      | .ok ms => .ok (m :: ms)

/-- Lines 130-137: load every requested root, then hand the loaded modules
to the external stub generator in one invocation. -/
def driverRun {E M O : Type} (imp : String → Except E M) (gen : List M → O)
    (roots : List String) : Except E O :=
  match loadModules imp roots with
  | .error e => .error e
  | .ok ms => .ok (gen ms)

/-- `ep.split(":")` of a coordinate. -/
def splitColon (ep : String) : List String :=
  (splitChar ':' ep.data).map (fun cs => String.mk cs)

/-- `ep.split(":")[1]` (line 120). The Python expression raises when the
coordinate has no colon, so theorems assume two or more fields. -/
def artifactOf (ep : String) : String := (splitColon ep).getD 1 ""

/-- `Path(j).name`. -/
def pathName (p : String) : String := lastPart (pparts p)

/-- `str.startswith`. -/
def strStartsWith (s pre : String) : Bool := pre.data.isPrefixOf s.data

/-- Line 122: the jar file name starts with one of the endpoint artifact
names (`startswith` with a tuple argument). -/
def jarMatches (endpoints : List String) (j : String) : Bool :=
  endpoints.any (fun ep => strStartsWith (pathName j) (artifactOf ep))

/-- The classpath jars inspected by the loop of lines 121-123. -/
def selectJars (endpoints cp : List String) : List String :=
  cp.filter (jarMatches endpoints)

/-- `sorted(set(l))` over strings (line 125), with the code point order. -/
def sortedStrSet (l : List String) : List String :=
  l.dedup.insertionSort (· ≤ ·)

/-- Lines 117-125: the namespace list handed to the stub driver, from the
supplied prefixes or, when none are given, from the matching classpath
jars through `list_top_level_packages`. -/
def computePrefixes (givenPs endpoints cp : List String)
    (jarEntries : String → List String) : List String :=
  if givenPs.isEmpty then
    sortedStrSet ((selectJars endpoints cp).flatMap
      (fun j => list_top_level_packages (jarEntries j)))
  else sortedStrSet givenPs

/-! Concrete fixtures used by witnesses and counterexamples. -/

/-- A parse oracle for the fixtures: `"nsonly"` parses to a lone marker
class, `"real"` to the marker plus one concrete class. -/
def parseT : String → List PyStmt := fun s =>
  if s = "nsonly" then [PyStmt.classDef "__module_protocol__"]
  else if s = "real" then [PyStmt.classDef "__module_protocol__", PyStmt.classDef "A"]
  else []

/-- An import oracle failing on one root. -/
def impT : String → Except String Nat := fun r =>
  if r = "org.bad" then Except.error "ModuleNotFoundError" else Except.ok 0

/-- A trivial generator oracle. -/
def genLen : List Nat → Nat := List.length

/-- A tree with one real stub. -/
def fsReal : FS := [⟨["org", "example"], "__init__.pyi", "real"⟩]

/-- A tree with one namespace-only and one real stub. -/
def fsMix : FS := [⟨["p"], "__init__.pyi", "nsonly"⟩, ⟨["p", "q"], "__init__.pyi", "real"⟩]

/-! Lemmas on the greedy root loop. -/

theorem ancStrict_irrefl (p : List String) : ancStrict p p = false := by
  simp [ancStrict]

theorem ancStrict_length {r p : List String} (h : ancStrict r p = true) :
    r.length < p.length := by
  simp only [ancStrict, Bool.and_eq_true, decide_eq_true_eq] at h
  exact h.2

theorem ancStrict_isPre {r p : List String} (h : ancStrict r p = true) : r <+: p := by
  simp only [ancStrict, Bool.and_eq_true, List.isPrefixOf_iff_prefix] at h
  exact h.1

theorem ancStrict_of_pre_ne {y r : List String} (h : y <+: r) (hne : y ≠ r) :
    ancStrict y r = true := by
  have hlt : y.length < r.length :=
    lt_of_le_of_ne h.length_le (fun he => hne (h.eq_of_length he))
  simp only [ancStrict, Bool.and_eq_true, List.isPrefixOf_iff_prefix, decide_eq_true_eq]
  exact ⟨h, hlt⟩

theorem ancStrict_trans {a b c : List String} (h1 : ancStrict a b = true)
    (h2 : ancStrict b c = true) : ancStrict a c = true := by
  simp only [ancStrict, Bool.and_eq_true, List.isPrefixOf_iff_prefix,
    decide_eq_true_eq] at h1 h2 ⊢
  exact ⟨h1.1.trans h2.1, Nat.lt_trans h1.2 h2.2⟩

theorem mem_addRoot {acc : List (List String)} {p q : List String}
    (h : q ∈ addRoot acc p) : q ∈ acc ∨ q = p := by
  unfold addRoot at h
  split at h
  · exact Or.inl h
  · rcases List.mem_append.mp h with h1 | h2
    · exact Or.inl h1
    · exact Or.inr (List.mem_singleton.mp h2)

theorem addRoot_mem {acc : List (List String)} {p q : List String}
    (h : q ∈ acc) : q ∈ addRoot acc p := by
  unfold addRoot
  split
  · exact h
  · exact List.mem_append.mpr (Or.inl h)

theorem addRoot_of_unobstructed {acc : List (List String)} {p : List String}
    (h : ∀ d ∈ acc, ancStrict d p = false) : addRoot acc p = acc ++ [p] := by
  unfold addRoot
  rw [if_neg]
  intro hany
  rcases List.any_eq_true.mp hany with ⟨r, hr, hrp⟩
  rw [h r hr] at hrp
  cases hrp

theorem addRoot_of_obstructed {acc : List (List String)} {p d : List String}
    (hd : d ∈ acc) (hdp : ancStrict d p = true) : addRoot acc p = acc := by
  unfold addRoot
  rw [if_pos (List.any_eq_true.mpr ⟨d, hd, hdp⟩)]

theorem mem_foldl_addRoot_of_mem :
    ∀ (L : List (List String)) (acc : List (List String)) (q : List String),
      q ∈ acc → q ∈ L.foldl addRoot acc := by
  intro L
  induction L with
  | nil => intro acc q h; exact h
  | cons p L ih => intro acc q h; exact ih _ _ (addRoot_mem h)

theorem mem_of_mem_foldl_addRoot :
    ∀ (L : List (List String)) (acc : List (List String)) (q : List String),
      q ∈ L.foldl addRoot acc → q ∈ acc ∨ q ∈ L := by
  intro L
  induction L with
  | nil => intro acc q h; exact Or.inl h
  | cons p L ih =>
    intro acc q h
    rcases ih _ _ h with h1 | h2
    · rcases mem_addRoot h1 with h3 | h4
      · exact Or.inl h3
      · exact Or.inr (by simp [h4])
    · exact Or.inr (List.mem_cons_of_mem _ h2)

theorem accepted_of_unobstructed :
    ∀ (L : List (List String)) (acc : List (List String)) (p : List String),
      p ∈ L →
      (∀ d ∈ acc, ancStrict d p = false) →
      (∀ d ∈ L, ancStrict d p = false) →
      p ∈ L.foldl addRoot acc := by
  intro L
  induction L with
  | nil => intro acc p h; cases h
  | cons q L ih =>
    intro acc p hmem hacc hL
    rcases List.mem_cons.mp hmem with rfl | hp
    · have hadd : addRoot acc p = acc ++ [p] := addRoot_of_unobstructed hacc
      show p ∈ List.foldl addRoot (addRoot acc p) L
      apply mem_foldl_addRoot_of_mem
      rw [hadd]
      exact List.mem_append.mpr (Or.inr (List.mem_singleton.mpr rfl))
    · apply ih _ _ hp
      · intro d hd
        rcases mem_addRoot hd with h1 | rfl
        · exact hacc d h1
        · exact hL d (List.mem_cons_self _ _)
      · intro d hd
        exact hL d (List.mem_cons_of_mem _ hd)

theorem not_mem_foldl_addRoot :
    ∀ (L : List (List String)) (acc : List (List String)) (p d : List String),
      List.Sorted depthLE L →
      ancStrict d p = true →
      p ∉ acc →
      (d ∈ acc ∨ (d ∈ L ∧ ∀ e, (e ∈ acc ∨ e ∈ L) → ancStrict e d = false)) →
      p ∉ L.foldl addRoot acc := by
  intro L
  induction L with
  | nil =>
    intro acc p d _ _ hpacc hdisj
    rcases hdisj with _ | ⟨h, _⟩
    · exact hpacc
    · cases h
  | cons q L ih =>
    intro acc p d hsort hdp hpacc hdisj
    obtain ⟨hq, hsort2⟩ := List.sorted_cons.mp hsort
    have hpq : p ∉ addRoot acc q := by
      by_cases hqp : q = p
      · subst hqp
        rcases hdisj with hd | ⟨hdL, _⟩
        · rw [addRoot_of_obstructed hd hdp]
          exact hpacc
        · rcases List.mem_cons.mp hdL with rfl | hdL2
          · rw [ancStrict_irrefl] at hdp
            cases hdp
          · exact absurd (ancStrict_length hdp) (Nat.not_lt.mpr (hq d hdL2))
      · intro hmem
        rcases mem_addRoot hmem with h1 | rfl
        · exact hpacc h1
        · exact hqp rfl
    have hdisj2 : d ∈ addRoot acc q ∨
        (d ∈ L ∧ ∀ e, (e ∈ addRoot acc q ∨ e ∈ L) → ancStrict e d = false) := by
      rcases hdisj with hd | ⟨hdL, hmin⟩
      · exact Or.inl (addRoot_mem hd)
      · rcases List.mem_cons.mp hdL with rfl | hdL2
        · left
          rw [addRoot_of_unobstructed (fun e he => hmin e (Or.inl he))]
          exact List.mem_append.mpr (Or.inr (List.mem_singleton.mpr rfl))
        · right
          refine ⟨hdL2, ?_⟩
          intro e he
          rcases he with he1 | he2
          · rcases mem_addRoot he1 with h1 | rfl
            · exact hmin e (Or.inl h1)
            · exact hmin e (Or.inr (List.mem_cons_self _ _))
          · exact hmin e (Or.inr (List.mem_cons_of_mem _ he2))
    exact ih _ _ _ hsort2 hdp hpq hdisj2

theorem exists_min_obstructor (D : List (List String)) (p : List String) :
    ∀ (n : Nat) (d₀ : List String), d₀.length = n → d₀ ∈ D →
      ancStrict d₀ p = true →
      ∃ d, d ∈ D ∧ ancStrict d p = true ∧ ∀ e ∈ D, ancStrict e d = false := by
  intro n
  induction n using Nat.strong_induction_on with
  | _ n ih =>
    intro d₀ hlen hD hanc
    by_cases hmin : ∀ e ∈ D, ancStrict e d₀ = false
    · exact ⟨d₀, hD, hanc, hmin⟩
    · push_neg at hmin
      obtain ⟨e, heD, hne⟩ := hmin
      have het : ancStrict e d₀ = true := by
        cases hb : ancStrict e d₀
        · exact absurd hb hne
        · rfl
      exact ih e.length (hlen ▸ ancStrict_length het) e rfl heD
        (ancStrict_trans het hanc)

/-- Characterisation of the greedy loop: a directory is an accepted root
exactly when it directly holds classes and no other class directory is a
strict structural ancestor of it. -/
theorem mem_rootPaths_iff (nl : List String) (p : List String) :
    p ∈ rootPaths nl ↔
      p ∈ classDirs nl ∧ ∀ d ∈ classDirs nl, ancStrict d p = false := by
  have hperm := List.perm_insertionSort depthLE (classDirs nl)
  have hsort := List.sorted_insertionSort depthLE (classDirs nl)
  constructor
  · intro h
    have hp : p ∈ classDirs nl := by
      rcases mem_of_mem_foldl_addRoot _ _ _ h with h1 | h2
      · cases h1
      · exact hperm.mem_iff.mp h2
    refine ⟨hp, ?_⟩
    by_contra hcon
    push_neg at hcon
    obtain ⟨d₀, hd₀, hne⟩ := hcon
    have hd₀t : ancStrict d₀ p = true := by
      cases hb : ancStrict d₀ p
      · exact absurd hb hne
      · rfl
    obtain ⟨d, hdmem, hdp, hdmin⟩ :=
      exists_min_obstructor (classDirs nl) p d₀.length d₀ rfl hd₀ hd₀t
    refine not_mem_foldl_addRoot _ [] p d hsort hdp (List.not_mem_nil p) ?_ h
    refine Or.inr ⟨hperm.mem_iff.mpr hdmem, ?_⟩
    rintro e (he | he)
    · cases he
    · exact hdmin e (hperm.mem_iff.mp he)
  · rintro ⟨hp, hmin⟩
    refine accepted_of_unobstructed _ [] p (hperm.mem_iff.mpr hp) ?_ ?_
    · intro d hd; cases hd
    · intro d hd; exact hmin d (hperm.mem_iff.mp hd)

theorem mem_classDirs_iff (nl : List String) (d : List String) :
    d ∈ classDirs nl ↔ dirHasClass nl d := by
  constructor
  · intro h
    rcases List.mem_map.mp (List.mem_dedup.mp h) with ⟨e, he, rfl⟩
    rcases List.mem_filter.mp he with ⟨henl, hcls⟩
    exact ⟨e, henl, hcls, rfl⟩
  · rintro ⟨e, henl, hcls, rfl⟩
    exact List.mem_dedup.mpr
      (List.mem_map.mpr ⟨e, List.mem_filter.mpr ⟨henl, hcls⟩, rfl⟩)

theorem exists_root_covering (nl : List String) :
    ∀ (n : Nat) (d : List String), d.length = n → d ∈ classDirs nl →
      ∃ r, r ∈ rootPaths nl ∧ r <+: d := by
  intro n
  induction n using Nat.strong_induction_on with
  | _ n ih =>
    intro d hlen hd
    by_cases hmin : ∀ e ∈ classDirs nl, ancStrict e d = false
    · exact ⟨d, (mem_rootPaths_iff nl d).mpr ⟨hd, hmin⟩, List.prefix_refl d⟩
    · push_neg at hmin
      obtain ⟨e, he, hne⟩ := hmin
      have het : ancStrict e d = true := by
        cases hb : ancStrict e d
        · exact absurd hb hne
        · rfl
      obtain ⟨r, hr, hpre⟩ := ih e.length (hlen ▸ ancStrict_length het) e rfl he
      exact ⟨r, hr, hpre.trans (ancStrict_isPre het)⟩

/-- C1. For every archive whose compiled-class directories are exactly
`a/b`, `a/b/d` and `a/f`, root discovery returns exactly the set
`{a.b, a.f}`: `a` is not returned (it holds no class directly) and
`a.b.d` is suppressed by its accepted ancestor `a.b`. -/
theorem c1_roots_exact (nl : List String)
    (h : (classDirs nl).toFinset =
      ({["a", "b"], ["a", "b", "d"], ["a", "f"]} : Finset (List String))) :
    ∀ s, s ∈ list_top_level_packages nl ↔ (s = "a.b" ∨ s = "a.f") := by
  have hmem : ∀ x : List String, x ∈ classDirs nl ↔
      (x = ["a", "b"] ∨ x = ["a", "b", "d"] ∨ x = ["a", "f"]) := by
    intro x
    rw [← List.mem_toFinset, h]
    simp
  have hroot : ∀ q : List String,
      q ∈ rootPaths nl ↔ (q = ["a", "b"] ∨ q = ["a", "f"]) := by
    intro q
    rw [mem_rootPaths_iff]
    constructor
    · rintro ⟨hq, hmin⟩
      rcases (hmem q).mp hq with rfl | rfl | rfl
      · exact Or.inl rfl
      · exact absurd (hmin ["a", "b"] ((hmem _).mpr (Or.inl rfl))) (by decide)
      · exact Or.inr rfl
    · rintro (rfl | rfl)
      · refine ⟨(hmem _).mpr (Or.inl rfl), ?_⟩
        intro d hd
        rcases (hmem d).mp hd with rfl | rfl | rfl <;> decide
      · refine ⟨(hmem _).mpr (Or.inr (Or.inr rfl)), ?_⟩
        intro d hd
        rcases (hmem d).mp hd with rfl | rfl | rfl <;> decide
  intro s
  simp only [list_top_level_packages, List.mem_map]
  constructor
  · rintro ⟨q, hq, rfl⟩
    rcases (hroot q).mp hq with rfl | rfl
    · exact Or.inl (by decide)
    · exact Or.inr (by decide)
  · rintro (rfl | rfl)
    · exact ⟨["a", "b"], (hroot _).mpr (Or.inl rfl), by decide⟩
    · exact ⟨["a", "f"], (hroot _).mpr (Or.inr rfl), by decide⟩

theorem c1_roots_exact_witness :
    (classDirs nlABF).toFinset =
      ({["a", "b"], ["a", "b", "d"], ["a", "f"]} : Finset (List String)) ∧
    "a.b" ∈ list_top_level_packages nlABF := by
  have h : (classDirs nlABF).toFinset =
      ({["a", "b"], ["a", "b", "d"], ["a", "f"]} : Finset (List String)) := by
    decide
  exact ⟨h, (c1_roots_exact nlABF h "a.b").mpr (Or.inl rfl)⟩

/-- C2. For every archive entry list the accepted roots form an antichain
under the strict structural ancestor relation, every directory that
directly holds a class entry lies in the subtree of exactly one accepted
root, and every accepted root directly holds at least one class entry. -/
theorem c2_rootPaths_invariants (nl : List String) :
    (∀ r1 ∈ rootPaths nl, ∀ r2 ∈ rootPaths nl, ancStrict r1 r2 = false) ∧
    (∀ d ∈ classDirs nl, ∃! r, r ∈ rootPaths nl ∧ r <+: d) ∧
    (∀ r ∈ rootPaths nl, dirHasClass nl r) := by
  refine ⟨?_, ?_, ?_⟩
  · intro r1 h1 r2 h2
    exact ((mem_rootPaths_iff nl r2).mp h2).2 r1 ((mem_rootPaths_iff nl r1).mp h1).1
  · intro d hd
    obtain ⟨r, hr, hpre⟩ := exists_root_covering nl d.length d rfl hd
    refine ⟨r, ⟨hr, hpre⟩, ?_⟩
    rintro y ⟨hy, hypre⟩
    by_contra hne
    have hanti : ∀ a ∈ rootPaths nl, ∀ b ∈ rootPaths nl, ancStrict a b = false :=
      fun a ha b hb =>
        ((mem_rootPaths_iff nl b).mp hb).2 a ((mem_rootPaths_iff nl a).mp ha).1
    rcases List.prefix_or_prefix_of_prefix hypre hpre with hc | hc
    · have := ancStrict_of_pre_ne hc hne
      rw [hanti y hy r hr] at this
      cases this
    · have := ancStrict_of_pre_ne hc (fun he => hne he.symm)
      rw [hanti r hr y hy] at this
      cases this
  · intro r hr
    exact (mem_classDirs_iff nl r).mp ((mem_rootPaths_iff nl r).mp hr).1

theorem c2_rootPaths_invariants_witness :
    (ancStrict ["a", "b"] ["a", "f"] = false) ∧
    (∃! r, r ∈ rootPaths nlABF ∧ r <+: ["a", "b", "d"]) ∧
    dirHasClass nlABF ["a", "b"] := by
  obtain ⟨h1, h2, h3⟩ := c2_rootPaths_invariants nlABF
  refine ⟨h1 ["a", "b"] ?_ ["a", "f"] ?_, h2 ["a", "b", "d"] ?_, h3 ["a", "b"] ?_⟩
  · decide
  · decide
  · decide
  · decide

/-- C3, counterexample. An archive with a class entry directly at its top
level does not produce the empty-string root: the code renders the archive
root as `str(PurePath("."))`, the single dot. -/
theorem c3_counterexample :
    isClassEntry "C.class" = true ∧ parentDir "C.class" = ([] : List String) ∧
      "" ∉ list_top_level_packages ["C.class"] := by decide

/-- C3, amended. For every archive with at least one class entry directly
at its top level, root discovery returns the dot root `"."` (the rendering
of the archive root directory), which stands for the whole archive. -/
theorem c3_amended (nl : List String) (e : String) (he : e ∈ nl)
    (hc : isClassEntry e = true) (hp : parentDir e = []) :
    "." ∈ list_top_level_packages nl := by
  have hd : ([] : List String) ∈ classDirs nl :=
    (mem_classDirs_iff nl []).mpr ⟨e, he, hc, hp⟩
  have hroot : ([] : List String) ∈ rootPaths nl := by
    refine (mem_rootPaths_iff nl []).mpr ⟨hd, ?_⟩
    intro d _
    simp [ancStrict]
  exact List.mem_map.mpr ⟨[], hroot, by decide⟩

theorem c3_amended_witness :
    ("C.class" ∈ ["C.class"] ∧ isClassEntry "C.class" = true ∧
      parentDir "C.class" = ([] : List String)) ∧
    "." ∈ list_top_level_packages ["C.class"] :=
  ⟨⟨by decide, by decide, by decide⟩,
    c3_amended ["C.class"] "C.class" (by decide) (by decide) (by decide)⟩

/-! Lemmas on the file system primitives. -/

theorem find?_filter_not {α : Type} (p : α → Bool) :
    ∀ l : List α, (l.filter (fun a => !(p a))).find? p = none := by
  intro l
  induction l with
  | nil => rfl
  | cons a l ih =>
    cases h : p a with
    | true => simp [List.filter_cons, h, ih]
    | false => simp [List.filter_cons, h, ih]

theorem find?_filter_imp {α : Type} (p q : α → Bool)
    (h : ∀ a, p a = true → q a = true) :
    ∀ l : List α, (l.filter q).find? p = l.find? p := by
  intro l
  induction l with
  | nil => rfl
  | cons a l ih =>
    by_cases hq : q a
    · by_cases hp : p a
      · simp [List.filter_cons, hq, hp]
      · simp [List.filter_cons, hq, hp, ih]
    · have hp : p a = false := by
        cases hb : p a
        · rfl
        · exact absurd (h a hb) hq
      simp [List.filter_cons, hq, hp, ih]

theorem find?_map_comm {α : Type} (g : α → α) (p : α → Bool)
    (hp : ∀ a, p (g a) = p a) :
    ∀ l : List α, (l.map g).find? p = (l.find? p).map g := by
  intro l
  induction l with
  | nil => rfl
  | cons a l ih =>
    by_cases hpa : p a
    · simp [List.map_cons, hp, hpa]
    · simp [List.map_cons, hp, hpa, ih]

theorem keyMatch_iff {d : List String} {n : String} {f : SFile} :
    keyMatch d n f = true ↔ (f.dir = d ∧ f.fname = n) := by
  simp [keyMatch]

theorem keyMatch_self (d : List String) (n t : String) :
    keyMatch d n ⟨d, n, t⟩ = true := by
  simp [keyMatch]

theorem keyMatch_text (d : List String) (n t : String) (f : SFile) :
    keyMatch d n { f with text := t } = keyMatch d n f := by
  simp [keyMatch]

theorem lookupFile_removeFile_self (fs : FS) (d : List String) (n : String) :
    lookupFile (removeFile fs d n) d n = none := by
  unfold lookupFile removeFile
  rw [find?_filter_not (keyMatch d n) fs]
  rfl

theorem lookupFile_removeFile_ne (fs : FS) (d : List String) (n : String)
    (d' : List String) (n' : String) (h : ¬(d' = d ∧ n' = n)) :
    lookupFile (removeFile fs d n) d' n' = lookupFile fs d' n' := by
  unfold lookupFile removeFile
  have himp : ∀ f, keyMatch d' n' f = true → (!(keyMatch d n f)) = true := by
    intro f hf
    rcases keyMatch_iff.mp hf with ⟨h1, h2⟩
    have hk : keyMatch d n f = false := by
      cases hb : keyMatch d n f
      · rfl
      · rcases keyMatch_iff.mp hb with ⟨h3, h4⟩
        exact absurd ⟨h1.symm.trans h3, h2.symm.trans h4⟩ h
    simp [hk]
  rw [find?_filter_imp _ _ himp fs]

theorem lookupFile_writeFile_self (fs : FS) (d : List String) (n t : String) :
    lookupFile (writeFile fs d n t) d n = some t := by
  unfold writeFile
  by_cases h : fs.any (keyMatch d n)
  · rw [if_pos h]
    unfold lookupFile
    rw [find?_map_comm _ _ (fun a => by
      by_cases hk : keyMatch d n a <;> simp [hk, keyMatch_text])]
    rcases List.any_eq_true.mp h with ⟨f, hf, hkf⟩
    cases hfind : fs.find? (keyMatch d n) with
    | none =>
      rw [List.find?_eq_none] at hfind
      exact absurd hkf (by simpa using hfind f hf)
    | some f₀ =>
      have hk₀ := List.find?_some hfind
      simp [hk₀]
  · rw [if_neg h]
    unfold lookupFile
    rw [List.find?_append]
    have hnone : fs.find? (keyMatch d n) = none := by
      rw [List.find?_eq_none]
      intro x hx hpx
      exact h (List.any_eq_true.mpr ⟨x, hx, hpx⟩)
    simp [hnone, keyMatch_self]

theorem lookupFile_writeFile_ne (fs : FS) (d : List String) (n t : String)
    (d' : List String) (n' : String) (h : ¬(d' = d ∧ n' = n)) :
    lookupFile (writeFile fs d n t) d' n' = lookupFile fs d' n' := by
  unfold writeFile
  by_cases hany : fs.any (keyMatch d n)
  · rw [if_pos hany]
    unfold lookupFile
    rw [find?_map_comm _ _ (fun a => by
      by_cases hk : keyMatch d n a <;> simp [hk, keyMatch_text])]
    cases hfind : fs.find? (keyMatch d' n') with
    | none => rfl
    | some f₀ =>
      have hk₀ := List.find?_some hfind
      rcases keyMatch_iff.mp hk₀ with ⟨h1, h2⟩
      have hne : keyMatch d n f₀ = false := by
        cases hb : keyMatch d n f₀
        · rfl
        · rcases keyMatch_iff.mp hb with ⟨h3, h4⟩
          exact absurd ⟨h1.symm.trans h3, h2.symm.trans h4⟩ h
      simp [hne]
  · rw [if_neg hany]
    unfold lookupFile
    rw [List.find?_append]
    have hnew : keyMatch d' n' (⟨d, n, t⟩ : SFile) = false := by
      cases hb : keyMatch d' n' (⟨d, n, t⟩ : SFile)
      · rfl
      · rcases keyMatch_iff.mp hb with ⟨h1, h2⟩
        exact absurd ⟨h1.symm, h2.symm⟩ h
    simp [hnew]

theorem lookup_of_mem_goodFS {fs : FS} (hg : goodFS fs) {f : SFile} (hf : f ∈ fs) :
    lookupFile fs f.dir f.fname = some f.text := by
  induction fs with
  | nil => cases hf
  | cons g rest ih =>
    have hg2 : ((g.dir, g.fname) ∉ rest.map (fun x => (x.dir, x.fname))) ∧
        goodFS rest := by
      unfold goodFS at hg
      rw [List.map_cons, List.nodup_cons] at hg
      exact hg
    rcases List.mem_cons.mp hf with rfl | hf2
    · unfold lookupFile
      rw [List.find?_cons_of_pos _ (by simp [keyMatch])]
      rfl
    · have hne : keyMatch f.dir f.fname g = false := by
        cases hb : keyMatch f.dir f.fname g
        · rfl
        · rcases keyMatch_iff.mp hb with ⟨h1, h2⟩
          exfalso
          apply hg2.1
          rw [h1, h2]
          exact List.mem_map.mpr ⟨f, hf2, rfl⟩
      unfold lookupFile
      rw [List.find?_cons_of_neg _ (by simp [hne])]
      exact ih hg2.2 hf2

theorem goodFS_removeFile {fs : FS} (h : goodFS fs) (d : List String) (n : String) :
    goodFS (removeFile fs d n) := by
  unfold goodFS removeFile at *
  exact List.Nodup.sublist (List.Sublist.map _ (List.filter_sublist fs)) h

theorem goodFS_writeFile {fs : FS} (h : goodFS fs) (d : List String) (n t : String) :
    goodFS (writeFile fs d n t) := by
  unfold writeFile
  by_cases hany : fs.any (keyMatch d n)
  · rw [if_pos hany]
    unfold goodFS at *
    have heq : (fs.map (fun f => if keyMatch d n f then { f with text := t } else f)).map
        (fun f => (f.dir, f.fname)) = fs.map (fun f => (f.dir, f.fname)) := by
      rw [List.map_map]
      apply List.map_congr_left
      intro a _
      by_cases hk : keyMatch d n a <;> simp [hk]
    rw [heq]
    exact h
  · rw [if_neg hany]
    unfold goodFS at *
    rw [List.map_append, List.nodup_append]
    refine ⟨h, List.nodup_singleton _, ?_⟩
    intro x hx hx2
    simp only [List.map_cons, List.map_nil, List.mem_singleton] at hx2
    subst hx2
    rcases List.mem_map.mp hx with ⟨f, hf, hkey⟩
    apply hany
    refine List.any_eq_true.mpr ⟨f, hf, ?_⟩
    refine keyMatch_iff.mpr ⟨?_, ?_⟩
    · exact congrArg Prod.fst hkey
    · exact congrArg Prod.snd hkey

theorem goodFS_stepStub (parse : String → List PyStmt) (removeNs addRt : Bool)
    (eps : List String) {fs : FS} (h : goodFS fs) (p : List String × String) :
    goodFS (stepStub parse removeNs addRt eps fs p) := by
  unfold stepStub
  split
  · exact h
  · split
    · split
      · exact goodFS_removeFile h _ _
      · exact h
    · split
      · exact goodFS_writeFile h _ _ _
      · exact h

theorem goodFS_foldl (parse : String → List PyStmt) (removeNs addRt : Bool)
    (eps : List String) :
    ∀ (L : List (List String × String)) (fs : FS), goodFS fs →
      goodFS (L.foldl (stepStub parse removeNs addRt eps) fs) := by
  intro L
  induction L with
  | nil => intro fs h; exact h
  | cons p L ih => intro fs h; exact ih _ (goodFS_stepStub _ _ _ _ h p)

theorem goodFS_reconcile (parse : String → List PyStmt) (removeNs addRt : Bool)
    (eps : List String) {fs : FS} (h : goodFS fs) :
    goodFS (reconcile parse removeNs addRt eps fs) :=
  goodFS_foldl parse removeNs addRt eps _ fs h

theorem isPyiName_withSuffixPy (nm : String) : isPyiName (withSuffixPy nm) = false := by
  unfold isPyiName withSuffixPy
  rw [Bool.eq_false_iff]
  intro hcon
  rw [List.isSuffixOf_iff_suffix] at hcon
  obtain ⟨u, hu⟩ := hcon
  have hdata : (nameStem nm ++ ".py").data = (nameStem nm).data ++ ['.', 'p', 'y'] := rfl
  rw [hdata] at hu
  have h1 : (u ++ ['.', 'p', 'y', 'i']).getLast? = some 'i' := by
    have he : u ++ ['.', 'p', 'y', 'i'] = (u ++ ['.', 'p', 'y']) ++ ['i'] := by simp
    rw [he, List.getLast?_concat]
  have h2 : ((nameStem nm).data ++ ['.', 'p', 'y']).getLast? = some 'y' := by
    have he : (nameStem nm).data ++ ['.', 'p', 'y'] =
        ((nameStem nm).data ++ ['.', 'p']) ++ ['y'] := by simp
    rw [he, List.getLast?_concat]
  rw [hu, h2] at h1
  exact absurd h1 (by decide)

/-! Lemmas on the reconciliation loop. -/

theorem stepStub_eq_none (parse : String → List PyStmt) (removeNs addRt : Bool)
    (eps : List String) {fs : FS} {q : List String × String}
    (h : lookupFile fs q.1 q.2 = none) :
    stepStub parse removeNs addRt eps fs q = fs := by
  unfold stepStub
  rw [h]

theorem stepStub_eq_some (parse : String → List PyStmt) (removeNs addRt : Bool)
    (eps : List String) {fs : FS} {q : List String × String} {t : String}
    (h : lookupFile fs q.1 q.2 = some t) :
    stepStub parse removeNs addRt eps fs q =
      if isNamespaceOnly (parse t) then
        if removeNs then removeFile fs q.1 q.2 else fs
      else if addRt then writeFile fs q.1 (withSuffixPy q.2) (initContent eps)
      else fs := by
  unfold stepStub
  rw [h]

theorem stepStub_lookup_pyi_ne (parse : String → List PyStmt) (removeNs addRt : Bool)
    (eps : List String) (fs : FS) (q : List String × String) (d : List String)
    (n : String) (hn : isPyiName n = true) (hq : ¬(d = q.1 ∧ n = q.2)) :
    lookupFile (stepStub parse removeNs addRt eps fs q) d n = lookupFile fs d n := by
  cases hl : lookupFile fs q.1 q.2 with
  | none => rw [stepStub_eq_none parse removeNs addRt eps hl]
  | some t =>
    rw [stepStub_eq_some parse removeNs addRt eps hl]
    by_cases h1 : isNamespaceOnly (parse t)
    · rw [if_pos h1]
      by_cases h2 : removeNs
      · rw [if_pos h2]
        exact lookupFile_removeFile_ne fs q.1 q.2 d n hq
      · rw [if_neg h2]
    · rw [if_neg h1]
      by_cases h3 : addRt
      · rw [if_pos h3]
        apply lookupFile_writeFile_ne
        intro hcon
        have hw := isPyiName_withSuffixPy q.2
        rw [← hcon.2, hn] at hw
        cases hw
      · rw [if_neg h3]

theorem stepStub_none_pyi (parse : String → List PyStmt) (removeNs addRt : Bool)
    (eps : List String) (fs : FS) (q : List String × String) (d : List String)
    (n : String) (hn : isPyiName n = true) (h : lookupFile fs d n = none) :
    lookupFile (stepStub parse removeNs addRt eps fs q) d n = none := by
  by_cases hq : d = q.1 ∧ n = q.2
  · have hlq : lookupFile fs q.1 q.2 = none := by rw [← hq.1, ← hq.2]; exact h
    rw [stepStub_eq_none parse removeNs addRt eps hlq]
    exact h
  · rw [stepStub_lookup_pyi_ne _ _ _ _ fs q d n hn hq]
    exact h

theorem foldl_lookup_pyi_not_mem (parse : String → List PyStmt) (removeNs addRt : Bool)
    (eps : List String) (d : List String) (n : String) (hn : isPyiName n = true) :
    ∀ (L : List (List String × String)) (fs : FS), (d, n) ∉ L →
      lookupFile (L.foldl (stepStub parse removeNs addRt eps) fs) d n =
        lookupFile fs d n := by
  intro L
  induction L with
  | nil => intro fs _; rfl
  | cons q L ih =>
    intro fs hmem
    have hq : ¬(d = q.1 ∧ n = q.2) := by
      intro hcon
      exact hmem (List.mem_cons.mpr (Or.inl (Prod.ext_iff.mpr ⟨hcon.1, hcon.2⟩)))
    rw [List.foldl_cons, ih _ (fun hm => hmem (List.mem_cons_of_mem _ hm))]
    exact stepStub_lookup_pyi_ne _ _ _ _ fs q d n hn hq

theorem foldl_lookup_pyi_none (parse : String → List PyStmt) (removeNs addRt : Bool)
    (eps : List String) (d : List String) (n : String) (hn : isPyiName n = true) :
    ∀ (L : List (List String × String)) (fs : FS), lookupFile fs d n = none →
      lookupFile (L.foldl (stepStub parse removeNs addRt eps) fs) d n = none := by
  intro L
  induction L with
  | nil => intro fs h; exact h
  | cons q L ih =>
    intro fs h
    rw [List.foldl_cons]
    exact ih _ (stepStub_none_pyi _ _ _ _ fs q d n hn h)

theorem foldl_lookup_pyi_some (parse : String → List PyStmt) (removeNs addRt : Bool)
    (eps : List String) (d : List String) (n : String) (hn : isPyiName n = true) :
    ∀ (L : List (List String × String)) (fs : FS) (t : String),
      lookupFile (L.foldl (stepStub parse removeNs addRt eps) fs) d n = some t →
      lookupFile fs d n = some t := by
  intro L
  induction L with
  | nil => intro fs t h; exact h
  | cons q L ih =>
    intro fs t h
    rw [List.foldl_cons] at h
    have h2 := ih _ _ h
    by_cases hq : d = q.1 ∧ n = q.2
    · cases hl : lookupFile fs d n with
      | none =>
        rw [stepStub_none_pyi _ _ _ _ fs q d n hn hl] at h2
        cases h2
      | some t₀ =>
        have hlq : lookupFile fs q.1 q.2 = some t₀ := by
          rw [← hq.1, ← hq.2]; exact hl
        rw [stepStub_eq_some parse removeNs addRt eps hlq] at h2
        by_cases h1 : isNamespaceOnly (parse t₀)
        · rw [if_pos h1] at h2
          by_cases hrm : removeNs
          · rw [if_pos hrm] at h2
            rw [← hq.1, ← hq.2] at h2
            rw [lookupFile_removeFile_self] at h2
            cases h2
          · rw [if_neg hrm] at h2
            exact hl.symm.trans h2
        · rw [if_neg h1] at h2
          by_cases hrt : addRt
          · rw [if_pos hrt] at h2
            rw [lookupFile_writeFile_ne] at h2
            · exact hl.symm.trans h2
            · intro hcon
              have hw := isPyiName_withSuffixPy q.2
              rw [← hcon.2, hn] at hw
              cases hw
          · rw [if_neg hrt] at h2
            exact hl.symm.trans h2
    · rw [stepStub_lookup_pyi_ne _ _ _ _ fs q d n hn hq] at h2
      exact h2

theorem stubKeys_pyi {fs : FS} {q : List String × String} (h : q ∈ stubKeys fs) :
    isPyiName q.2 = true := by
  rcases List.mem_map.mp h with ⟨f, hf, rfl⟩
  exact (List.mem_filter.mp hf).2

theorem stubKeys_nodup {fs : FS} (h : goodFS fs) : (stubKeys fs).Nodup := by
  unfold goodFS at h
  unfold stubKeys
  exact List.Nodup.sublist (List.Sublist.map _ (List.filter_sublist fs)) h

theorem mem_stubKeys {fs : FS} {d : List String} {n t : String}
    (h : lookupFile fs d n = some t) (hn : isPyiName n = true) :
    (d, n) ∈ stubKeys fs := by
  unfold lookupFile at h
  cases hfind : fs.find? (keyMatch d n) with
  | none => rw [hfind] at h; cases h
  | some f₀ =>
    have hmem := List.mem_of_find?_eq_some hfind
    have hk := List.find?_some hfind
    rcases keyMatch_iff.mp hk with ⟨h1, h2⟩
    unfold stubKeys
    refine List.mem_map.mpr ⟨f₀, List.mem_filter.mpr ⟨hmem, ?_⟩, ?_⟩
    · rw [h2]; exact hn
    · rw [h1, h2]

theorem nodup_split_not_mem {α : Type} {L1 L2 : List α} {a : α}
    (h : (L1 ++ a :: L2).Nodup) : a ∉ L1 ∧ a ∉ L2 := by
  rw [List.nodup_append] at h
  obtain ⟨h1, h2, hdisj⟩ := h
  exact ⟨fun hmem => hdisj hmem (List.mem_cons_self _ _), (List.nodup_cons.mp h2).1⟩

theorem reconcile_deletes (parse : String → List PyStmt) (addRt : Bool)
    (eps : List String) {fs : FS} {d : List String} {n t : String}
    (hgood : goodFS fs) (hl : lookupFile fs d n = some t) (hn : isPyiName n = true)
    (hns : isNamespaceOnly (parse t) = true) :
    lookupFile (reconcile parse true addRt eps fs) d n = none := by
  have hkey : (d, n) ∈ stubKeys fs := mem_stubKeys hl hn
  obtain ⟨L1, L2, hsplit⟩ := List.append_of_mem hkey
  have hnodup := stubKeys_nodup hgood
  rw [hsplit] at hnodup
  obtain ⟨hn1, _⟩ := nodup_split_not_mem hnodup
  unfold reconcile
  rw [hsplit, List.foldl_append, List.foldl_cons]
  have hafter1 : lookupFile (L1.foldl (stepStub parse true addRt eps) fs) d n = some t := by
    rw [foldl_lookup_pyi_not_mem parse true addRt eps d n hn L1 fs hn1]
    exact hl
  have hlq : lookupFile (L1.foldl (stepStub parse true addRt eps) fs) (d, n).1 (d, n).2 =
      some t := hafter1
  rw [stepStub_eq_some parse true addRt eps hlq, if_pos hns,
    if_pos (rfl : (true : Bool) = true)]
  apply foldl_lookup_pyi_none parse true addRt eps d n hn L2
  exact lookupFile_removeFile_self _ (d, n).1 (d, n).2

theorem reconcile_keeps (parse : String → List PyStmt) (removeNs addRt : Bool)
    (eps : List String) {fs : FS} {d : List String} {n t : String}
    (hgood : goodFS fs) (hl : lookupFile fs d n = some t) (hn : isPyiName n = true)
    (hkeep : removeNs = false ∨ isNamespaceOnly (parse t) = false) :
    lookupFile (reconcile parse removeNs addRt eps fs) d n = some t := by
  have hkey : (d, n) ∈ stubKeys fs := mem_stubKeys hl hn
  obtain ⟨L1, L2, hsplit⟩ := List.append_of_mem hkey
  have hnodup := stubKeys_nodup hgood
  rw [hsplit] at hnodup
  obtain ⟨hn1, hn2⟩ := nodup_split_not_mem hnodup
  unfold reconcile
  rw [hsplit, List.foldl_append, List.foldl_cons]
  have hafter1 : lookupFile (L1.foldl (stepStub parse removeNs addRt eps) fs) d n =
      some t := by
    rw [foldl_lookup_pyi_not_mem parse removeNs addRt eps d n hn L1 fs hn1]
    exact hl
  have hlq : lookupFile (L1.foldl (stepStub parse removeNs addRt eps) fs) (d, n).1
      (d, n).2 = some t := hafter1
  rw [stepStub_eq_some parse removeNs addRt eps hlq]
  by_cases h1 : isNamespaceOnly (parse t)
  · rw [if_pos h1]
    rcases hkeep with hrm | hns
    · rw [if_neg (show ¬(removeNs = true) by rw [hrm]; exact Bool.false_ne_true),
        foldl_lookup_pyi_not_mem parse removeNs addRt eps d n hn L2 _ hn2]
      exact hafter1
    · rw [h1] at hns; cases hns
  · rw [if_neg h1]
    by_cases h3 : addRt
    · rw [if_pos h3,
        foldl_lookup_pyi_not_mem parse removeNs addRt eps d n hn L2 _ hn2]
      rw [lookupFile_writeFile_ne]
      · exact hafter1
      · intro hcon
        have hw := isPyiName_withSuffixPy (d, n).2
        rw [← hcon.2, hn] at hw
        cases hw
    · rw [if_neg h3,
        foldl_lookup_pyi_not_mem parse removeNs addRt eps d n hn L2 _ hn2]
      exact hafter1

/-- C8. A stub file is deleted by the reconciliation pass exactly when the
removal flag is set and the file is classified namespace only; otherwise it
survives with its text intact. -/
theorem c8_delete_iff (parse : String → List PyStmt) (removeNs addRt : Bool)
    (eps : List String) (fs : FS) (d : List String) (n t : String)
    (hgood : goodFS fs) (hl : lookupFile fs d n = some t) (hn : isPyiName n = true) :
    lookupFile (reconcile parse removeNs addRt eps fs) d n = none ↔
      (removeNs = true ∧ isNamespaceOnly (parse t) = true) := by
  constructor
  · intro hnone
    by_cases hrm : removeNs = true
    · by_cases hns : isNamespaceOnly (parse t) = true
      · exact ⟨hrm, hns⟩
      · have hns2 : isNamespaceOnly (parse t) = false := by
          revert hns; cases isNamespaceOnly (parse t) <;> simp
        have hk := reconcile_keeps parse removeNs addRt eps hgood hl hn (Or.inr hns2)
        rw [hnone] at hk
        cases hk
    · have hrm2 : removeNs = false := by
        revert hrm; cases removeNs <;> simp
      have hk := reconcile_keeps parse removeNs addRt eps hgood hl hn (Or.inl hrm2)
      rw [hnone] at hk
      cases hk
  · rintro ⟨hrm, hns⟩
    subst hrm
    exact reconcile_deletes parse addRt eps hgood hl hn hns

theorem c8_delete_iff_witness :
    lookupFile (reconcile parseT true true ["g:a:1"] fsMix) ["p"] "__init__.pyi" =
      none :=
  (c8_delete_iff parseT true true ["g:a:1"] fsMix ["p"] "__init__.pyi" "nsonly"
    (by decide) (by decide) (by decide)).mpr ⟨rfl, by decide⟩

/-- C9, counterexample. When the formatting tool is available, the
formatting pass at the end of `generate_stubs` rewrites surviving stub
files in place, so the final text can differ from the generated text. -/
theorem c9_counterexample :
    lookupFile (postProcess parseT false false [] true (fun _ => "reformatted")
        [⟨[], "M.pyi", "real"⟩]) [] "M.pyi" = some "reformatted" ∧
      "reformatted" ≠ "real" := by
  constructor
  · decide
  · decide

/-- C9, amended. The reconciliation pass never edits the text of a stub
file: it only deletes whole files or adds companion files, so when the
formatting tool is unavailable every surviving stub file still carries the
text the external generator wrote. -/
theorem c9_stub_texts_preserved (parse : String → List PyStmt) (removeNs addRt : Bool)
    (eps : List String) (fix : String → String) (fs : FS) (d : List String)
    (n t : String) (hn : isPyiName n = true)
    (h : lookupFile (postProcess parse removeNs addRt eps false fix fs) d n = some t) :
    lookupFile fs d n = some t := by
  unfold postProcess ruffPhase at h
  rw [if_neg Bool.false_ne_true] at h
  unfold reconcile at h
  exact foldl_lookup_pyi_some parse removeNs addRt eps d n hn (stubKeys fs) fs t h

theorem c9_stub_texts_preserved_witness :
    lookupFile fsReal ["org", "example"] "__init__.pyi" = some "real" :=
  c9_stub_texts_preserved parseT false true ["g:a:1"] (fun s => s) fsReal
    ["org", "example"] "__init__.pyi" "real" (by decide) (by decide)

theorem names_eq_members (body : List PyStmt) :
    declaredDefNames body = members body := by
  induction body with
  | nil => rfl
  | cons s rest ih =>
    cases s <;>
      simp [declaredDefNames, members, List.filterMap_cons, stmtName, ih,
        Finset.insert_eq]

/-- C4, counterexample. A stub whose body is the marker class followed by
a top level assignment is classified namespace only by the pass (the
assignment node carries no name field), although the set of names
introduced at its module scope is not the marker singleton: the claimed
equivalence fails. -/
theorem c4_counterexample :
    isNamespaceOnly [PyStmt.classDef "__module_protocol__",
      PyStmt.assign ["x"]] = true ∧
    namesIntroducedAtModuleScope [PyStmt.classDef "__module_protocol__",
      PyStmt.assign ["x"]] ≠ ({"__module_protocol__"} : Finset String) := by
  constructor
  · decide
  · decide

/-- C4, amended. The reconciliation pass classifies a stub file as
namespace only exactly when the set of names of its top level class and
function definitions, the statements bearing a name field (which is all
that line 144 collects), is the singleton of the module protocol marker;
names bound by top level assignments and imports are not counted. -/
theorem c4_classification (body : List PyStmt) :
    isNamespaceOnly body = true ↔
      declaredDefNames body = ({"__module_protocol__"} : Finset String) := by
  rw [names_eq_members]
  simp [isNamespaceOnly]

theorem c4_classification_witness :
    isNamespaceOnly [PyStmt.classDef "__module_protocol__"] = true :=
  (c4_classification _).mpr (by decide)

theorem stepStub_companion_stable (parse : String → List PyStmt) (removeNs addRt : Bool)
    (eps : List String) (fs : FS) (q : List String × String)
    (hq : isPyiName q.2 = true) (d' : List String) (n' : String)
    (hn' : isPyiName n' = false)
    (hv : lookupFile fs d' n' = some (initContent eps)) :
    lookupFile (stepStub parse removeNs addRt eps fs q) d' n' =
      some (initContent eps) := by
  cases hl : lookupFile fs q.1 q.2 with
  | none => rw [stepStub_eq_none parse removeNs addRt eps hl]; exact hv
  | some t =>
    rw [stepStub_eq_some parse removeNs addRt eps hl]
    by_cases h1 : isNamespaceOnly (parse t)
    · rw [if_pos h1]
      by_cases h2 : removeNs
      · rw [if_pos h2]
        rw [lookupFile_removeFile_ne]
        · exact hv
        · intro hcon
          rw [hcon.2, hq] at hn'
          cases hn'
      · rw [if_neg h2]; exact hv
    · rw [if_neg h1]
      by_cases h3 : addRt
      · rw [if_pos h3]
        by_cases hc : d' = q.1 ∧ n' = withSuffixPy q.2
        · rw [hc.1, hc.2]
          exact lookupFile_writeFile_self _ _ _ _
        · rw [lookupFile_writeFile_ne _ _ _ _ _ _ hc]
          exact hv
      · rw [if_neg h3]; exact hv

theorem foldl_companion_stable (parse : String → List PyStmt) (removeNs addRt : Bool)
    (eps : List String) (d' : List String) (n' : String) (hn' : isPyiName n' = false) :
    ∀ (L : List (List String × String)) (fs : FS), (∀ q ∈ L, isPyiName q.2 = true) →
      lookupFile fs d' n' = some (initContent eps) →
      lookupFile (L.foldl (stepStub parse removeNs addRt eps) fs) d' n' =
        some (initContent eps) := by
  intro L
  induction L with
  | nil => intro fs _ hv; exact hv
  | cons q L ih =>
    intro fs hpyi hv
    rw [List.foldl_cons]
    exact ih _ (fun p hp => hpyi p (List.mem_cons_of_mem _ hp))
      (stepStub_companion_stable parse removeNs addRt eps fs q
        (hpyi q (List.mem_cons_self _ _)) d' n' hn' hv)

theorem reconcile_companion_written (parse : String → List PyStmt) (removeNs : Bool)
    (eps : List String) {fs : FS} {d : List String} {n t : String}
    (hgood : goodFS fs) (hl : lookupFile fs d n = some t) (hn : isPyiName n = true)
    (hreal : isNamespaceOnly (parse t) = false) :
    lookupFile (reconcile parse removeNs true eps fs) d (withSuffixPy n) =
      some (initContent eps) := by
  have hkey : (d, n) ∈ stubKeys fs := mem_stubKeys hl hn
  obtain ⟨L1, L2, hsplit⟩ := List.append_of_mem hkey
  have hnodup := stubKeys_nodup hgood
  rw [hsplit] at hnodup
  obtain ⟨hn1, _⟩ := nodup_split_not_mem hnodup
  unfold reconcile
  rw [hsplit, List.foldl_append, List.foldl_cons]
  have hafter1 : lookupFile (L1.foldl (stepStub parse removeNs true eps) fs) d n =
      some t := by
    rw [foldl_lookup_pyi_not_mem parse removeNs true eps d n hn L1 fs hn1]
    exact hl
  have hlq : lookupFile (L1.foldl (stepStub parse removeNs true eps) fs) (d, n).1
      (d, n).2 = some t := hafter1
  rw [stepStub_eq_some parse removeNs true eps hlq,
    if_neg (show ¬(isNamespaceOnly (parse t) = true) by
      rw [hreal]; exact Bool.false_ne_true),
    if_pos (rfl : (true : Bool) = true)]
  apply foldl_companion_stable parse removeNs true eps d (withSuffixPy n)
    (isPyiName_withSuffixPy n) L2
  · intro p hp
    apply stubKeys_pyi
    rw [hsplit]
    exact List.mem_append.mpr (Or.inr (List.mem_cons_of_mem _ hp))
  · exact lookupFile_writeFile_self _ _ _ _

theorem reconcile_untouched_nonpyi (parse : String → List PyStmt)
    (removeNs addRt : Bool) (eps : List String) {fs : FS}
    (d' : List String) (n' : String) (hn' : isPyiName n' = false)
    (hnw : ∀ g ∈ fs, isPyiName g.fname = true →
      isNamespaceOnly (parse g.text) = false →
      ¬(g.dir = d' ∧ withSuffixPy g.fname = n')) :
    lookupFile (reconcile parse removeNs addRt eps fs) d' n' =
      lookupFile fs d' n' := by
  suffices h : ∀ (L2 L1 : List (List String × String)), stubKeys fs = L1 ++ L2 →
      lookupFile ((L1 ++ L2).foldl (stepStub parse removeNs addRt eps) fs) d' n' =
        lookupFile (L1.foldl (stepStub parse removeNs addRt eps) fs) d' n' by
    have hh := h (stubKeys fs) [] rfl
    simpa [reconcile] using hh
  intro L2
  induction L2 with
  | nil => intro L1 _; simp
  | cons q L2 ih =>
    intro L1 hsplit
    have hassoc : L1 ++ q :: L2 = (L1 ++ [q]) ++ L2 := by simp
    rw [hassoc, ih (L1 ++ [q]) (by rw [hsplit, hassoc]), List.foldl_append]
    simp only [List.foldl_cons, List.foldl_nil]
    cases hl : lookupFile (L1.foldl (stepStub parse removeNs addRt eps) fs) q.1 q.2 with
    | none => rw [stepStub_eq_none parse removeNs addRt eps hl]
    | some tq =>
      have hqmem : q ∈ stubKeys fs := by
        rw [hsplit]
        exact List.mem_append.mpr (Or.inr (List.mem_cons_self _ _))
      have hqpyi : isPyiName q.2 = true := stubKeys_pyi hqmem
      have horig : lookupFile fs q.1 q.2 = some tq :=
        foldl_lookup_pyi_some parse removeNs addRt eps q.1 q.2 hqpyi L1 fs tq hl
      obtain ⟨g, hg, hgkey, hgtext⟩ : ∃ g, g ∈ fs ∧ (g.dir, g.fname) = q ∧
          g.text = tq := by
        unfold lookupFile at horig
        cases hfind : fs.find? (keyMatch q.1 q.2) with
        | none => rw [hfind] at horig; cases horig
        | some f₀ =>
          rw [hfind] at horig
          have hk := List.find?_some hfind
          rcases keyMatch_iff.mp hk with ⟨h1, h2⟩
          refine ⟨f₀, List.mem_of_find?_eq_some hfind, ?_, ?_⟩
          · rw [h1, h2]
          · simpa using horig
      rw [stepStub_eq_some parse removeNs addRt eps hl]
      by_cases h1 : isNamespaceOnly (parse tq)
      · rw [if_pos h1]
        by_cases h2 : removeNs
        · rw [if_pos h2]
          rw [lookupFile_removeFile_ne]
          intro hcon
          rw [hcon.2, hqpyi] at hn'
          cases hn'
        · rw [if_neg h2]
      · rw [if_neg h1]
        by_cases h3 : addRt
        · rw [if_pos h3]
          rw [lookupFile_writeFile_ne]
          intro hcon
          have h1f : isNamespaceOnly (parse tq) = false := by
            revert h1; cases isNamespaceOnly (parse tq) <;> simp
          have hgd : g.dir = q.1 := congrArg Prod.fst hgkey
          have hgn : g.fname = q.2 := congrArg Prod.snd hgkey
          apply hnw g hg
          · rw [hgn]
            exact hqpyi
          · rw [hgtext]
            exact h1f
          · exact ⟨hgd.trans hcon.1.symm, (congrArg withSuffixPy hgn).trans hcon.2.symm⟩
        · rw [if_neg h3]

/-- C5, counterexample. The companion module written next to a real stub
does not render the dependency coordinates as a Python list literal: the
loop joins the individually repr-ed coordinates with commas, so each
coordinate becomes one further call argument. -/
theorem c5_counterexample :
    lookupFile (reconcile parseT false true ["org.example:lib:1.0.0"] fsReal)
        ["org", "example"] "__init__.py" =
      some "from scyjava_stubs import dynamic_import\n\n__all__, __getattr__ = dynamic_import(__name__, __file__, 'org.example:lib:1.0.0')\n"
    ∧ initContent ["org.example:lib:1.0.0"] ≠
        specClaimContent ["org.example:lib:1.0.0"] := by
  constructor
  · decide
  · decide

/-- C5, amended. With runtime imports enabled the reconciliation pass
writes, for every stub classified real, a sibling same named `.py` module
whose text is exactly the template: an import of `dynamic_import` and one
call passing the dynamic `__name__` and `__file__` values followed by the
dependency coordinates as separate repr-ed string literal arguments (not
as one list literal); for a namespace-only stub no companion is written,
so its companion path keeps its previous content whenever no real stub
shares that companion path. -/
theorem c5_runtime_companions (parse : String → List PyStmt) (removeNs : Bool)
    (eps : List String) (fs : FS) (d : List String) (n t : String)
    (hgood : goodFS fs) (hl : lookupFile fs d n = some t) (hn : isPyiName n = true) :
    (isNamespaceOnly (parse t) = false →
      lookupFile (reconcile parse removeNs true eps fs) d (withSuffixPy n) =
        some (initContent eps)) ∧
    (isNamespaceOnly (parse t) = true →
      (∀ g ∈ fs, isPyiName g.fname = true → isNamespaceOnly (parse g.text) = false →
        ¬(g.dir = d ∧ withSuffixPy g.fname = withSuffixPy n)) →
      lookupFile (reconcile parse removeNs true eps fs) d (withSuffixPy n) =
        lookupFile fs d (withSuffixPy n)) := by
  constructor
  · intro hreal
    exact reconcile_companion_written parse removeNs eps hgood hl hn hreal
  · intro _ hnw
    exact reconcile_untouched_nonpyi parse removeNs true eps d (withSuffixPy n)
      (isPyiName_withSuffixPy n) hnw

theorem c5_runtime_companions_witness :
    lookupFile (reconcile parseT false true ["g:a:1"] fsReal) ["org", "example"]
        (withSuffixPy "__init__.pyi") = some (initContent ["g:a:1"]) :=
  (c5_runtime_companions parseT false ["g:a:1"] fsReal ["org", "example"]
    "__init__.pyi" "real" (by decide) (by decide) (by decide)).1 (by decide)

theorem text_of_mem_goodFS {fs : FS} (hgood : goodFS fs) {f : SFile} (hf : f ∈ fs)
    {t : String} (hv : lookupFile fs f.dir f.fname = some t) : f.text = t := by
  have hself := lookup_of_mem_goodFS hgood hf
  rw [hself] at hv
  exact Option.some.inj hv

theorem writeFile_self_id {fs : FS} (hgood : goodFS fs) {d : List String}
    {n t : String} (hv : lookupFile fs d n = some t) : writeFile fs d n t = fs := by
  unfold writeFile
  have hany : fs.any (keyMatch d n) = true := by
    unfold lookupFile at hv
    cases hfind : fs.find? (keyMatch d n) with
    | none => rw [hfind] at hv; cases hv
    | some f₀ =>
      exact List.any_eq_true.mpr
        ⟨f₀, List.mem_of_find?_eq_some hfind, List.find?_some hfind⟩
  rw [if_pos hany]
  have hmap : fs.map (fun f => if keyMatch d n f then { f with text := t } else f) =
      fs.map id := by
    apply List.map_congr_left
    intro a ha
    by_cases hk : keyMatch d n a
    · have htext : a.text = t := by
        apply text_of_mem_goodFS hgood ha
        rcases keyMatch_iff.mp hk with ⟨h1, h2⟩
        rw [h1, h2]
        exact hv
      rw [if_pos hk]
      show ({ a with text := t } : SFile) = a
      rw [← htext]
    · rw [if_neg hk]
      rfl
  rw [hmap, List.map_id]

theorem foldl_fixed {α : Type} (f : FS → α → FS) (fs : FS) :
    ∀ (L : List α), (∀ p ∈ L, f fs p = fs) → L.foldl f fs = fs := by
  intro L
  induction L with
  | nil => intro _; rfl
  | cons q L ih =>
    intro h
    rw [List.foldl_cons, h q (List.mem_cons_self _ _)]
    exact ih (fun p hp => h p (List.mem_cons_of_mem _ hp))

/-- C6. The reconciliation pass is idempotent: with the flags fixed,
running it twice over a generated tree gives exactly the tree produced by
one run; deleting an already deleted namespace-only stub and re-writing an
already present companion module are no-ops. -/
theorem c6_idempotent (parse : String → List PyStmt) (removeNs addRt : Bool)
    (eps : List String) (fs : FS) (hgood : goodFS fs) :
    reconcile parse removeNs addRt eps (reconcile parse removeNs addRt eps fs) =
      reconcile parse removeNs addRt eps fs := by
  have hgood2 : goodFS (reconcile parse removeNs addRt eps fs) :=
    goodFS_reconcile parse removeNs addRt eps hgood
  show (stubKeys (reconcile parse removeNs addRt eps fs)).foldl
      (stepStub parse removeNs addRt eps) (reconcile parse removeNs addRt eps fs) =
    reconcile parse removeNs addRt eps fs
  apply foldl_fixed
  intro p hp
  rcases List.mem_map.mp hp with ⟨f', hf', hpk⟩
  rcases List.mem_filter.mp hf' with ⟨hf'mem, hf'pyi⟩
  have hlk2 : lookupFile (reconcile parse removeNs addRt eps fs) p.1 p.2 =
      some f'.text := by
    rw [← hpk]
    exact lookup_of_mem_goodFS hgood2 hf'mem
  have hpyi : isPyiName p.2 = true := by rw [← hpk]; exact hf'pyi
  have hlk1 : lookupFile fs p.1 p.2 = some f'.text :=
    foldl_lookup_pyi_some parse removeNs addRt eps p.1 p.2 hpyi (stubKeys fs) fs
      f'.text hlk2
  rw [stepStub_eq_some parse removeNs addRt eps hlk2]
  by_cases h1 : isNamespaceOnly (parse f'.text)
  · rw [if_pos h1]
    by_cases h2 : removeNs
    · exfalso
      have hdel := reconcile_deletes parse addRt eps hgood hlk1 hpyi h1
      rw [← h2] at hdel
      rw [hdel] at hlk2
      cases hlk2
    · rw [if_neg h2]
  · rw [if_neg h1]
    by_cases h3 : addRt
    · rw [if_pos h3]
      apply writeFile_self_id hgood2
      have h1f : isNamespaceOnly (parse f'.text) = false := by
        revert h1; cases isNamespaceOnly (parse f'.text) <;> simp
      have hcomp := reconcile_companion_written parse removeNs eps hgood hlk1 hpyi h1f
      rw [← h3] at hcomp
      exact hcomp
    · rw [if_neg h3]

theorem c6_idempotent_witness :
    reconcile parseT true true ["g:a:1"] (reconcile parseT true true ["g:a:1"] fsMix) =
      reconcile parseT true true ["g:a:1"] fsMix :=
  c6_idempotent parseT true true ["g:a:1"] fsMix (by decide)

theorem loadModules_error {E M : Type} (imp : String → Except E M) :
    ∀ (roots : List String), (∃ r ∈ roots, ∃ e, imp r = .error e) →
      ∃ e, loadModules imp roots = .error e := by
  intro roots
  induction roots with
  | nil => rintro ⟨r, hr, _⟩; cases hr
  | cons r₀ rest ih =>
    rintro ⟨r, hr, e, he⟩
    rcases List.mem_cons.mp hr with rfl | hr2
    · refine ⟨e, ?_⟩
      unfold loadModules
      rw [he]
    · cases h0 : imp r₀ with
      | error e0 =>
        refine ⟨e0, ?_⟩
        unfold loadModules
        rw [h0]
      | ok m =>
        obtain ⟨e1, he1⟩ := ih ⟨r, hr2, e, he⟩
        refine ⟨e1, ?_⟩
        unfold loadModules
        rw [h0, he1]

/-- C7. When some requested namespace root fails to import, the driver
propagates the error before the generator runs: the whole run is an error
value and no output is produced; no root is silently skipped. -/
theorem c7_fail_fast {E M O : Type} (imp : String → Except E M) (gen : List M → O)
    (roots : List String) (h : ∃ r ∈ roots, ∃ e, imp r = .error e) :
    (∃ e, driverRun imp gen roots = .error e) ∧
      ∀ o, driverRun imp gen roots ≠ .ok o := by
  obtain ⟨e, he⟩ := loadModules_error imp roots h
  constructor
  · refine ⟨e, ?_⟩
    unfold driverRun
    rw [he]
  · intro o hcon
    unfold driverRun at hcon
    rw [he] at hcon
    cases hcon

theorem c7_fail_fast_witness :
    (∃ r ∈ ["org.good", "org.bad"], ∃ e, impT r = .error e) ∧
      ((∃ e, driverRun impT genLen ["org.good", "org.bad"] = .error e) ∧
        ∀ o, driverRun impT genLen ["org.good", "org.bad"] ≠ .ok o) := by
  have h : ∃ r ∈ ["org.good", "org.bad"], ∃ e, impT r = .error e :=
    ⟨"org.bad", by decide, "ModuleNotFoundError", rfl⟩
  exact ⟨h, c7_fail_fast impT genLen _ h⟩

theorem sortedStrSet_sorted (l : List String) : (sortedStrSet l).Sorted (· ≤ ·) :=
  List.sorted_insertionSort _ _

theorem sortedStrSet_nodup (l : List String) : (sortedStrSet l).Nodup :=
  (List.Perm.nodup_iff (List.perm_insertionSort _ _)).mpr (List.nodup_dedup l)

theorem sortedStrSet_toFinset (l : List String) :
    (sortedStrSet l).toFinset = l.toFinset := by
  apply Finset.ext
  intro a
  simp [sortedStrSet]

theorem selectJars_idem (endpoints cp : List String) :
    selectJars endpoints (selectJars endpoints cp) = selectJars endpoints cp := by
  unfold selectJars
  rw [List.filter_filter]
  exact List.filter_congr (fun j _ => Bool.and_self (jarMatches endpoints j))

/-- C10. With a non empty prefixes argument the classpath is never
inspected: the result is the supplied prefixes, deduplicated and sorted
ascending, independent of the classpath and of the archive contents.
With no prefixes, discovery runs exactly over the classpath jars whose
file name starts with one of the endpoint artifact names. -/
theorem c10_prefix_handling (givenPs endpoints cp : List String)
    (jarEntries : String → List String)
    (_hwf : ∀ ep ∈ endpoints, 2 ≤ (splitColon ep).length) :
    (givenPs ≠ [] →
      (computePrefixes givenPs endpoints cp jarEntries).Sorted (· ≤ ·) ∧
      (computePrefixes givenPs endpoints cp jarEntries).Nodup ∧
      (computePrefixes givenPs endpoints cp jarEntries).toFinset =
        givenPs.toFinset ∧
      ∀ (cp' : List String) (je' : String → List String),
        computePrefixes givenPs endpoints cp jarEntries =
          computePrefixes givenPs endpoints cp' je') ∧
    (givenPs = [] →
      computePrefixes givenPs endpoints cp jarEntries =
        sortedStrSet ((selectJars endpoints cp).flatMap
          (fun j => list_top_level_packages (jarEntries j))) ∧
      computePrefixes givenPs endpoints cp jarEntries =
        computePrefixes givenPs endpoints (selectJars endpoints cp) jarEntries) := by
  constructor
  · intro hne
    have hemp : givenPs.isEmpty = false := by
      cases givenPs
      · exact absurd rfl hne
      · rfl
    have hval : ∀ (cp0 : List String) (je0 : String → List String),
        computePrefixes givenPs endpoints cp0 je0 = sortedStrSet givenPs := by
      intro cp0 je0
      unfold computePrefixes
      rw [hemp, if_neg Bool.false_ne_true]
    rw [hval cp jarEntries]
    refine ⟨sortedStrSet_sorted _, sortedStrSet_nodup _, sortedStrSet_toFinset _, ?_⟩
    intro cp' je'
    rw [hval cp' je']
  · intro hemp
    subst hemp
    constructor
    · rfl
    · show sortedStrSet _ = computePrefixes [] endpoints (selectJars endpoints cp)
        jarEntries
      unfold computePrefixes
      rw [selectJars_idem]
      rfl

theorem c10_prefix_handling_witness :
    computePrefixes ["b", "a", "b"] ["g:art:1.0"] ["x/art-1.0.jar"]
        (fun _ => ["zz"]) =
      computePrefixes ["b", "a", "b"] ["g:art:1.0"] [] (fun _ => []) :=
  (((c10_prefix_handling ["b", "a", "b"] ["g:art:1.0"] ["x/art-1.0.jar"]
      (fun _ => ["zz"]) (by decide)).1 (by decide)).2.2.2) [] (fun _ => [])
